import Mathlib

/-!
# Verification of `consistent_polytope_nd` (src/lib/utils.py)

Shallow embedding of the polytope grid generator over exact rationals.
A parameter matrix with R rows and K columns is a `List (List ℚ)` of R rows,
each of length K.  Python's `IndexError` on `range_points[-1]` for an empty
`range_points` is modelled by `Option`: `none` means the call raises.
-/

namespace Polytope

/-- Python `int(q)`: truncation of a rational toward zero. -/
def truncInt (q : ℚ) : ℤ := if 0 ≤ q then ⌊q⌋ else ⌈q⌉

/-- The point count `num_dp_points = int((delta_max - delta_min) / step_size) + 1`. -/
def numPoints (lo hi step : ℚ) : ℤ := truncInt ((hi - lo) / step) + 1

/-- The list `range_points = [min(delta_min + j * step_size, delta_max) for j in range(num_dp_points)]`.
A nonpositive count gives the empty list, as Python's `range` does. -/
def rangePoints (lo hi step : ℚ) : List ℚ :=
  (List.range (numPoints lo hi step).toNat).map fun (j : ℕ) => min (lo + (j : ℚ) * step) hi

/-- The per-dimension discretized axis: `range_points`, with `delta_max` appended when
`range_points[-1] < delta_max`.  `none` models the `IndexError` that
`range_points[-1]` raises on an empty list. -/
def axisPoints (lo hi step : ℚ) : Option (List ℚ) :=
  if rangePoints lo hi step = [] then none
  else some (if (rangePoints lo hi step).getLastD 0 < hi
             then rangePoints lo hi step ++ [hi]
             else rangePoints lo hi step)

/-- Minimum of a numeric row, as `np.min` over one row (rows are nonempty in any
well-formed call; the `[]` case is an arbitrary default). -/
def listMin : List ℚ → ℚ
  | [] => 0
  | [x] => x
  | x :: y :: xs => min x (listMin (y :: xs))

/-- Maximum of a numeric row, as `np.max` over one row. -/
def listMax : List ℚ → ℚ
  | [] => 0
  | [x] => x
  | x :: y :: xs => max x (listMax (y :: xs))

/-- The vector `p_min = np.min(params, axis=1)`: per-row minima. -/
def pMin (params : List (List ℚ)) : List ℚ := params.map listMin

/-- The vector `p_max = np.max(params, axis=1)`: per-row maxima. -/
def pMax (params : List (List ℚ)) : List ℚ := params.map listMax

/-- The column `p_k = params[:, k]`: the k-th column of the matrix. -/
def colK (params : List (List ℚ)) (k : ℕ) : List ℚ :=
  params.map fun row => row.getD k 0

/-- One component of `delta_min_k = np.maximum(delta_params_min, np.maximum(p_min - p_k, -delta_params_max))`. -/
def deltaLo (dmin dmax pmin pk : ℚ) : ℚ := max dmin (max (pmin - pk) (-dmax))

/-- One component of `delta_max_k = np.minimum(delta_params_max, np.minimum(p_max - p_k, delta_params_max))`. -/
def deltaHi (dmax pmax pk : ℚ) : ℚ := min dmax (min (pmax - pk) dmax)

/-- Sequencing of a list of optional values: `some` of the list of results when every
entry is `some`, `none` as soon as one entry is `none` (a raised error propagates). -/
def seqOpt {α : Type} : List (Option α) → Option (List α)
  | [] => some []
  | none :: _ => none
  | some a :: rest => (seqOpt rest).map fun l => a :: l

/-- The bound `delta_min_k[d]`: the lower endpoint of the feasible delta interval of
dimension `d` for column `k`. -/
def loDK (params : List (List ℚ)) (dmin dmax : List ℚ) (k d : ℕ) : ℚ :=
  deltaLo (dmin.getD d 0) (dmax.getD d 0) ((pMin params).getD d 0) ((colK params k).getD d 0)

/-- The bound `delta_max_k[d]`: the upper endpoint of the feasible delta interval of
dimension `d` for column `k`. -/
def hiDK (params : List (List ℚ)) (dmax : List ℚ) (k d : ℕ) : ℚ :=
  deltaHi (dmax.getD d 0) ((pMax params).getD d 0) ((colK params k).getD d 0)

/-- The list `delta_ranges` for column `k`: one discretized axis per row dimension
`d in range(params.shape[0])`; `none` if any axis raises. -/
def columnAxes (params : List (List ℚ)) (dmin dmax : List ℚ) (step : ℚ) (k : ℕ) :
    Option (List (List ℚ)) :=
  seqOpt ((List.range params.length).map fun d =>
    axisPoints (loDK params dmin dmax k d) (hiDK params dmax k d) step)

/-- Cartesian product of the axes in `np.meshgrid(..., indexing="ij")`/`ravel` order:
the first axis varies slowest, the last axis fastest. -/
def cartProd : List (List ℚ) → List (List ℚ)
  | [] => [[]]
  | ax :: rest => (ax.map fun x => (cartProd rest).map fun c => x :: c).flatten

/-- One component of `np.clip(delta_p, delta_params_min, delta_params_max)`:
`min(hi, max(lo, x))`. -/
def clip1 (lo hi x : ℚ) : ℚ := min hi (max lo x)

/-- Elementwise clip of a delta combination into `[delta_params_min, delta_params_max]`. -/
def clipVec (dmin dmax : List ℚ) (delta : List ℚ) : List ℚ :=
  (List.range delta.length).map fun d => clip1 (dmin.getD d 0) (dmax.getD d 0) (delta.getD d 0)

/-- The `(p_k, delta_p)` pairs contributed by column `k`, in combination order. -/
def columnPairs (params : List (List ℚ)) (dmin dmax : List ℚ) (step : ℚ) (k : ℕ) :
    Option (List (List ℚ × List ℚ)) :=
  (columnAxes params dmin dmax step k).map fun axes =>
    (cartProd axes).map fun delta => (colK params k, clipVec dmin dmax delta)

/-- The function `consistent_polytope_nd` on a rank-2 matrix: the concatenation, in column order
`k = 0, 1, ..., K-1` with `K = params.shape[1]`, of each column's pairs.
`none` models a raised `IndexError`. -/
def consistent_polytope_nd (params : List (List ℚ)) (dmin dmax : List ℚ) (step : ℚ) :
    Option (List (List ℚ × List ℚ)) :=
  (seqOpt ((List.range ((params.headD []).length)).map
    (columnPairs params dmin dmax step))).map List.flatten

/-- The rank-1 normalization `params = params[None, :]`: the supplied length-R vector
becomes the single row of a 1×R matrix. -/
def normalizeRank1Params (v : List ℚ) : List (List ℚ) := [v]

/-- The rank-1 normalization of a delta bound, `np.array([delta_params_min])`:
the bound is wrapped as a length-1 outer sequence. -/
def wrapDeltaBound {α : Type} (b : α) : List α := [b]

/-! ## Basic list lemmas -/

lemma listMin_le {x : ℚ} : ∀ {l : List ℚ}, x ∈ l → listMin l ≤ x
  | [], hx => absurd hx (List.not_mem_nil x)
  | [y], hx => by
      rcases List.mem_singleton.mp hx with rfl
      simp [listMin]
  | y :: z :: t, hx => by
      rcases List.mem_cons.mp hx with rfl | hx'
      · simp [listMin]
      · exact le_trans (by simp [listMin]) (listMin_le hx')

lemma le_listMax {x : ℚ} : ∀ {l : List ℚ}, x ∈ l → x ≤ listMax l
  | [], hx => absurd hx (List.not_mem_nil x)
  | [y], hx => by
      rcases List.mem_singleton.mp hx with rfl
      simp [listMax]
  | y :: z :: t, hx => by
      rcases List.mem_cons.mp hx with rfl | hx'
      · simp [listMax]
      · exact le_trans (le_listMax hx') (by simp [listMax])

lemma getD_mem {α : Type} (d₀ : α) (l : List α) (k : ℕ) (hk : k < l.length) :
    l.getD k d₀ ∈ l := by
  rw [List.getD_eq_getElem l d₀ hk]
  exact List.getElem_mem hk

lemma getD_map_range {α : Type} (d₀ : α) (f : ℕ → α) {i n : ℕ} (hi : i < n) :
    (((List.range n).map f).getD i d₀) = f i := by
  have hlen : i < ((List.range n).map f).length := by simpa using hi
  rw [List.getD_eq_getElem _ d₀ hlen]
  simp

/-! ## Lemmas about seqOpt -/

lemma seqOpt_length {α : Type} :
    ∀ {xs : List (Option α)} {l : List α}, seqOpt xs = some l → l.length = xs.length
  | [], l, h => by simp [seqOpt] at h; simp [← h]
  | none :: rest, l, h => by simp [seqOpt] at h
  | some a :: rest, l, h => by
      cases hrest : seqOpt rest with
      | none => simp [seqOpt, hrest] at h
      | some l' =>
          simp only [seqOpt, hrest, Option.map_some', Option.some.injEq] at h
          subst h
          simp [seqOpt_length hrest]

lemma seqOpt_getD {α : Type} (d₀ : α) :
    ∀ {xs : List (Option α)} {l : List α}, seqOpt xs = some l →
      ∀ i, i < xs.length → xs.getD i none = some (l.getD i d₀)
  | [], l, h, i, hi => by simp at hi
  | none :: rest, l, h, i, hi => by simp [seqOpt] at h
  | some a :: rest, l, h, i, hi => by
      cases hrest : seqOpt rest with
      | none => simp [seqOpt, hrest] at h
      | some l' =>
          simp only [seqOpt, hrest, Option.map_some', Option.some.injEq] at h
          subst h
          cases i with
          | zero => simp
          | succ i' =>
              simp only [List.getD_cons_succ]
              exact seqOpt_getD d₀ hrest i' (by simpa using hi)

lemma seqOpt_mem {α : Type} :
    ∀ {xs : List (Option α)} {l : List α}, seqOpt xs = some l →
      ∀ {a : α}, a ∈ l → some a ∈ xs
  | [], l, h, a, ha => by simp [seqOpt] at h; subst h; simp at ha
  | none :: rest, l, h, a, ha => by simp [seqOpt] at h
  | some b :: rest, l, h, a, ha => by
      cases hrest : seqOpt rest with
      | none => simp [seqOpt, hrest] at h
      | some l' =>
          simp only [seqOpt, hrest, Option.map_some', Option.some.injEq] at h
          subst h
          rcases List.mem_cons.mp ha with rfl | ha'
          · exact List.mem_cons_self _ _
          · exact List.mem_cons_of_mem _ (seqOpt_mem hrest ha')

lemma seqOpt_of_all_some {α : Type} :
    ∀ {xs : List (Option α)}, (∀ o ∈ xs, ∃ a, o = some a) → ∃ l, seqOpt xs = some l
  | [], _ => ⟨[], rfl⟩
  | o :: rest, h => by
      obtain ⟨a, rfl⟩ := h o (List.mem_cons_self _ _)
      obtain ⟨l, hl⟩ := seqOpt_of_all_some fun o' ho' => h o' (List.mem_cons_of_mem _ ho')
      exact ⟨a :: l, by simp [seqOpt, hl]⟩

/-! ## Lemmas about cartProd -/

lemma cartProd_length : ∀ (axes : List (List ℚ)),
    (cartProd axes).length = (axes.map List.length).prod
  | [] => by simp [cartProd]
  | ax :: rest => by
      simp only [cartProd, List.length_flatten, List.map_map, List.map_cons, List.prod_cons]
      have : (List.map (List.length ∘ fun x => (cartProd rest).map fun c => x :: c) ax)
          = List.map (Function.const ℚ (cartProd rest).length) ax := by
        apply List.map_congr_left
        intro x _
        simp [Function.const]
      rw [this, List.map_const, List.sum_replicate, smul_eq_mul, cartProd_length rest]

lemma cartProd_mem : ∀ {axes : List (List ℚ)} {c : List ℚ}, c ∈ cartProd axes →
    c.length = axes.length ∧ ∀ d, d < axes.length → c.getD d 0 ∈ axes.getD d []
  | [], c, hc => by
      simp [cartProd] at hc
      subst hc
      exact ⟨rfl, fun d hd => by simp at hd⟩
  | ax :: rest, c, hc => by
      simp only [cartProd, List.mem_flatten, List.mem_map] at hc
      obtain ⟨sub, ⟨x, hx, rfl⟩, hcsub⟩ := hc
      obtain ⟨c', hc', rfl⟩ := List.mem_map.mp hcsub
      obtain ⟨hlen, hmem⟩ := cartProd_mem hc'
      refine ⟨by simp [hlen], fun d hd => ?_⟩
      cases d with
      | zero => simpa using hx
      | succ d' =>
          simp only [List.getD_cons_succ]
          exact hmem d' (by simpa using hd)

lemma cartProd_ne_nil {axes : List (List ℚ)} (h : ∀ ax ∈ axes, ax ≠ []) :
    cartProd axes ≠ [] := by
  have hpos : 0 < (cartProd axes).length := by
    rw [cartProd_length]
    apply List.prod_pos
    intro a ha
    obtain ⟨ax, hax, rfl⟩ := List.mem_map.mp ha
    exact List.length_pos.mpr (h ax hax)
  exact List.ne_nil_of_length_pos hpos

/-! ## Lemmas about rangePoints -/

lemma rangePoints_length (lo hi step : ℚ) :
    (rangePoints lo hi step).length = (numPoints lo hi step).toNat := by
  simp [rangePoints]

lemma rangePoints_getElem {lo hi step : ℚ} {i : ℕ}
    (h : i < (rangePoints lo hi step).length) :
    (rangePoints lo hi step)[i] = min (lo + (i : ℚ) * step) hi := by
  simp [rangePoints]

lemma numPoints_of_le (hstep : 0 < step) (hlh : lo ≤ hi) :
    numPoints lo hi step = ⌊(hi - lo) / step⌋ + 1 := by
  have hq : 0 ≤ (hi - lo) / step := div_nonneg (by linarith) hstep.le
  rw [numPoints, truncInt, if_pos hq]

lemma numPoints_toNat_pos (hstep : 0 < step) (hlh : lo ≤ hi) :
    0 < (numPoints lo hi step).toNat := by
  have hq : 0 ≤ (hi - lo) / step := div_nonneg (by linarith) hstep.le
  rw [numPoints_of_le hstep hlh]
  exact Int.lt_toNat.mpr (by positivity)

lemma numPoints_toNat_le_one (hstep : 0 < step) (hlt : hi < lo) :
    (numPoints lo hi step).toNat ≤ 1 := by
  have hq : (hi - lo) / step < 0 := div_neg_of_neg_of_pos (by linarith) hstep
  rw [numPoints, truncInt, if_neg (not_le.mpr hq)]
  have hceil : ⌈(hi - lo) / step⌉ ≤ 0 := Int.ceil_le.mpr (by exact_mod_cast hq.le)
  exact Int.toNat_le.mpr (by omega)

lemma stepPoint_le_hi (hstep : 0 < step) (hlh : lo ≤ hi) {j : ℕ}
    (hj : j < (numPoints lo hi step).toNat) :
    lo + (j : ℚ) * step ≤ hi := by
  rw [numPoints_of_le hstep hlh] at hj
  have hjz : (j : ℤ) ≤ ⌊(hi - lo) / step⌋ := by
    have := Int.lt_toNat.mp hj
    omega
  have hjq : (j : ℚ) ≤ (hi - lo) / step := by
    exact_mod_cast Int.le_floor.mp hjz
  have := mul_le_mul_of_nonneg_right hjq hstep.le
  rw [div_mul_cancel₀ _ (ne_of_gt hstep)] at this
  linarith

lemma rangePoints_mem_le_hi {lo hi step x : ℚ} (hx : x ∈ rangePoints lo hi step) :
    x ≤ hi := by
  simp only [rangePoints, List.mem_map, List.mem_range] at hx
  obtain ⟨j, _, rfl⟩ := hx
  exact min_le_right _ _

lemma rangePoints_mem_lo_le (hstep : 0 ≤ step) (hlh : lo ≤ hi) {x : ℚ}
    (hx : x ∈ rangePoints lo hi step) : lo ≤ x := by
  simp only [rangePoints, List.mem_map, List.mem_range] at hx
  obtain ⟨j, _, rfl⟩ := hx
  have : (0 : ℚ) ≤ (j : ℚ) * step := mul_nonneg (Nat.cast_nonneg j) hstep
  exact le_min (by linarith) hlh

lemma rangePoints_pairwise {lo hi step : ℚ} (hstep : 0 < step) :
    (rangePoints lo hi step).Pairwise (· < ·) := by
  rcases le_or_lt lo hi with hlh | hlt
  · rw [List.pairwise_iff_getElem]
    intro i j hi' hj' hij
    rw [rangePoints_getElem hi', rangePoints_getElem hj']
    have hj'' : j < (numPoints lo hi step).toNat := by
      rwa [rangePoints_length] at hj'
    have hcap : min (lo + (j : ℚ) * step) hi = lo + (j : ℚ) * step :=
      min_eq_left (stepPoint_le_hi hstep hlh hj'')
    rw [hcap]
    have hij' : (i : ℚ) < (j : ℚ) := by exact_mod_cast hij
    calc min (lo + (i : ℚ) * step) hi ≤ lo + (i : ℚ) * step := min_le_left _ _
      _ < lo + (j : ℚ) * step := by nlinarith
  · have hlen : (rangePoints lo hi step).length ≤ 1 := by
      rw [rangePoints_length]
      exact numPoints_toNat_le_one hstep hlt
    rcases heq : rangePoints lo hi step with _ | ⟨x, _ | ⟨y, t⟩⟩
    · exact List.Pairwise.nil
    · simp
    · rw [heq] at hlen
      simp at hlen

lemma rangePoints_ne_nil (hstep : 0 < step) (hlh : lo ≤ hi) :
    rangePoints lo hi step ≠ [] := by
  apply List.ne_nil_of_length_pos
  rw [rangePoints_length]
  exact numPoints_toNat_pos hstep hlh

lemma rangePoints_head? (hstep : 0 < step) (hlh : lo ≤ hi) :
    (rangePoints lo hi step).head? = some lo := by
  obtain ⟨m, hm⟩ : ∃ m, (numPoints lo hi step).toNat = m + 1 :=
    ⟨_, (Nat.succ_pred_eq_of_pos (numPoints_toNat_pos hstep hlh)).symm⟩
  rw [rangePoints, hm, List.range_succ_eq_map, List.map_cons, List.head?_cons]
  norm_num [min_eq_left hlh]

/-! ## Lemmas about axisPoints -/

lemma axisPoints_of_ne_nil (hne : rangePoints lo hi step ≠ []) :
    axisPoints lo hi step =
      some (if (rangePoints lo hi step).getLastD 0 < hi
            then rangePoints lo hi step ++ [hi]
            else rangePoints lo hi step) := by
  rw [axisPoints, if_neg hne]

lemma axisPoints_isSome (hstep : 0 < step) (hlh : lo ≤ hi) :
    ∃ ax, axisPoints lo hi step = some ax ∧ ax ≠ [] := by
  have hne := rangePoints_ne_nil hstep hlh
  rw [axisPoints_of_ne_nil hne]
  refine ⟨_, rfl, ?_⟩
  by_cases hcap : (rangePoints lo hi step).getLastD 0 < hi
  · rw [if_pos hcap]
    simp
  · rw [if_neg hcap]
    exact hne

lemma axisPoints_mem {lo hi step : ℚ} {ax : List ℚ} {x : ℚ}
    (hax : axisPoints lo hi step = some ax) (hx : x ∈ ax) :
    x ∈ rangePoints lo hi step ∨ x = hi := by
  rw [axisPoints] at hax
  by_cases hne : rangePoints lo hi step = []
  · rw [if_pos hne] at hax
    cases hax
  · rw [if_neg hne] at hax
    injection hax with hax
    subst hax
    by_cases hcap : (rangePoints lo hi step).getLastD 0 < hi
    · rw [if_pos hcap] at hx
      rcases List.mem_append.mp hx with h | h
      · exact Or.inl h
      · exact Or.inr (by simpa using h)
    · rw [if_neg hcap] at hx
      exact Or.inl hx

lemma axisPoints_mem_bounds (hstep : 0 < step) (hlh : lo ≤ hi) {ax : List ℚ} {x : ℚ}
    (hax : axisPoints lo hi step = some ax) (hx : x ∈ ax) :
    lo ≤ x ∧ x ≤ hi := by
  rcases axisPoints_mem hax hx with h | rfl
  · exact ⟨rangePoints_mem_lo_le hstep.le hlh h, rangePoints_mem_le_hi h⟩
  · exact ⟨hlh, le_refl _⟩

lemma axisPoints_head? (hstep : 0 < step) (hlh : lo ≤ hi) {ax : List ℚ}
    (hax : axisPoints lo hi step = some ax) : ax.head? = some lo := by
  have hne := rangePoints_ne_nil hstep hlh
  rw [axisPoints_of_ne_nil hne] at hax
  injection hax with hax
  subst hax
  obtain ⟨p, t, hpt⟩ := List.exists_cons_of_ne_nil hne
  have hp : p = lo := by
    have := rangePoints_head? hstep hlh
    rw [hpt, List.head?_cons] at this
    injection this
  by_cases hcap : (rangePoints lo hi step).getLastD 0 < hi
  · rw [if_pos hcap, hpt, hp]
    simp
  · rw [if_neg hcap, hpt, hp, List.head?_cons]

lemma axisPoints_getLast? (hstep : 0 < step) (hlh : lo ≤ hi) {ax : List ℚ}
    (hax : axisPoints lo hi step = some ax) : ax.getLast? = some hi := by
  have hne := rangePoints_ne_nil hstep hlh
  rw [axisPoints_of_ne_nil hne] at hax
  injection hax with hax
  subst hax
  by_cases hcap : (rangePoints lo hi step).getLastD 0 < hi
  · rw [if_pos hcap, List.getLast?_concat]
  · rw [if_neg hcap]
    have hlastmem : (rangePoints lo hi step).getLast hne ∈ rangePoints lo hi step :=
      List.getLast_mem hne
    have hle : (rangePoints lo hi step).getLast hne ≤ hi := rangePoints_mem_le_hi hlastmem
    have hD : (rangePoints lo hi step).getLastD 0 = (rangePoints lo hi step).getLast hne := by
      rw [List.getLastD_eq_getLast?, List.getLast?_eq_getLast _ hne]
      rfl
    have heq : (rangePoints lo hi step).getLast hne = hi := by
      rw [hD] at hcap
      exact le_antisymm hle (not_lt.mp hcap)
    rw [List.getLast?_eq_getLast _ hne, heq]

lemma axisPoints_chain' {lo hi step : ℚ} (hstep : 0 < step) {ax : List ℚ}
    (hax : axisPoints lo hi step = some ax) : ax.Chain' (· < ·) := by
  have hpw : (rangePoints lo hi step).Chain' (· < ·) :=
    (rangePoints_pairwise hstep).chain'
  rw [axisPoints] at hax
  by_cases hne : rangePoints lo hi step = []
  · rw [if_pos hne] at hax
    cases hax
  · rw [if_neg hne] at hax
    injection hax with hax
    subst hax
    by_cases hcap : (rangePoints lo hi step).getLastD 0 < hi
    · rw [if_pos hcap]
      refine List.chain'_append.mpr ⟨hpw, List.chain'_singleton _, ?_⟩
      intro x hx y hy
      rw [List.getLast?_eq_getLast _ hne] at hx
      simp only [List.head?_cons, Option.mem_def, Option.some.injEq] at hx hy
      have hD : (rangePoints lo hi step).getLastD 0 = (rangePoints lo hi step).getLast hne := by
        rw [List.getLastD_eq_getLast?, List.getLast?_eq_getLast _ hne]
        rfl
      subst hy
      rw [← hx, ← hD]
      exact hcap
    · rw [if_neg hcap]
      exact hpw

lemma axisPoints_no_trailing_dup {lo hi step : ℚ}
    (hne : rangePoints lo hi step ≠ [])
    (hlast : (rangePoints lo hi step).getLastD 0 = hi) :
    axisPoints lo hi step = some (rangePoints lo hi step) := by
  rw [axisPoints_of_ne_nil hne, hlast, if_neg (lt_irrefl hi)]

/-! ## Structural lemmas about the full pipeline -/

lemma getD_map {α β : Type} (d₀ : α) (e₀ : β) (f : α → β) {l : List α} {i : ℕ}
    (h : i < l.length) : (l.map f).getD i e₀ = f (l.getD i d₀) := by
  rw [List.getD_eq_getElem _ _ (by simpa using h), List.getD_eq_getElem _ _ h,
    List.getElem_map]

lemma consistent_eq_some {params : List (List ℚ)} {dmin dmax : List ℚ} {step : ℚ}
    {l : List (List ℚ × List ℚ)} :
    consistent_polytope_nd params dmin dmax step = some l ↔
      ∃ cols, seqOpt ((List.range ((params.headD []).length)).map
        (columnPairs params dmin dmax step)) = some cols ∧ cols.flatten = l := by
  simp [consistent_polytope_nd, Option.map_eq_some']

lemma columnPairs_eq_some {params : List (List ℚ)} {dmin dmax : List ℚ} {step : ℚ}
    {k : ℕ} {sub : List (List ℚ × List ℚ)} :
    columnPairs params dmin dmax step k = some sub ↔
      ∃ axes, columnAxes params dmin dmax step k = some axes ∧
        (cartProd axes).map
          (fun delta => (colK params k, clipVec dmin dmax delta)) = sub := by
  simp [columnPairs, Option.map_eq_some']

lemma columnAxes_getD {params : List (List ℚ)} {dmin dmax : List ℚ} {step : ℚ}
    {k : ℕ} {axes : List (List ℚ)}
    (h : columnAxes params dmin dmax step k = some axes) :
    axes.length = params.length ∧
    ∀ d, d < params.length →
      axisPoints (loDK params dmin dmax k d) (hiDK params dmax k d) step
        = some (axes.getD d []) := by
  constructor
  · rw [seqOpt_length h]
    simp
  · intro d hd
    have hlen : d < ((List.range params.length).map fun d =>
        axisPoints (loDK params dmin dmax k d) (hiDK params dmax k d) step).length := by
      simpa using hd
    have := seqOpt_getD [] h d hlen
    rwa [getD_map_range none _ hd] at this

lemma mem_output {params : List (List ℚ)} {dmin dmax : List ℚ} {step : ℚ}
    {l : List (List ℚ × List ℚ)} {pr : List ℚ × List ℚ}
    (hl : consistent_polytope_nd params dmin dmax step = some l) (hpr : pr ∈ l) :
    ∃ k, k < (params.headD []).length ∧
      ∃ axes, columnAxes params dmin dmax step k = some axes ∧
        ∃ delta ∈ cartProd axes, pr = (colK params k, clipVec dmin dmax delta) := by
  obtain ⟨cols, hcols, rfl⟩ := consistent_eq_some.mp hl
  obtain ⟨sub, hsub, hprsub⟩ := List.mem_flatten.mp hpr
  have hsome : some sub ∈ (List.range ((params.headD []).length)).map
      (columnPairs params dmin dmax step) := seqOpt_mem hcols hsub
  obtain ⟨k, hk, hck⟩ := List.mem_map.mp hsome
  obtain ⟨axes, haxes, hmap⟩ := columnPairs_eq_some.mp hck
  subst hmap
  obtain ⟨delta, hdelta, hpr'⟩ := List.mem_map.mp hprsub
  exact ⟨k, List.mem_range.mp hk, axes, haxes, delta, hdelta, hpr'.symm⟩

lemma clipVec_getD {dmin dmax delta : List ℚ} {d : ℕ} (hd : d < delta.length) :
    (clipVec dmin dmax delta).getD d 0
      = clip1 (dmin.getD d 0) (dmax.getD d 0) (delta.getD d 0) :=
  getD_map_range 0 _ hd

lemma dmin_le_loDK (params : List (List ℚ)) (dmin dmax : List ℚ) (k d : ℕ) :
    dmin.getD d 0 ≤ loDK params dmin dmax k d :=
  le_max_left _ _

lemma pminsub_le_loDK (params : List (List ℚ)) (dmin dmax : List ℚ) (k d : ℕ) :
    (pMin params).getD d 0 - (colK params k).getD d 0 ≤ loDK params dmin dmax k d :=
  le_trans (le_max_left _ _) (le_max_right _ _)

lemma hiDK_le_dmax (params : List (List ℚ)) (dmax : List ℚ) (k d : ℕ) :
    hiDK params dmax k d ≤ dmax.getD d 0 :=
  min_le_left _ _

lemma hiDK_le_pmaxsub (params : List (List ℚ)) (dmax : List ℚ) (k d : ℕ) :
    hiDK params dmax k d ≤ (pMax params).getD d 0 - (colK params k).getD d 0 :=
  le_trans (min_le_right _ _) (min_le_left _ _)

/-! ## Claim theorems -/

/-- C2: for every per-dimension discretization with `lo ≤ hi` and `step_size > 0`,
the resulting axis is non-empty, its first element equals `lo`, and its last
element equals `hi` exactly, including when `hi - lo` is not an exact multiple
of `step_size`. -/
theorem C2_boundary_inclusion (lo hi step : ℚ) (hlh : lo ≤ hi) (hstep : 0 < step) :
    ∃ ax, axisPoints lo hi step = some ax ∧ ax ≠ [] ∧
      ax.head? = some lo ∧ ax.getLast? = some hi := by
  obtain ⟨ax, hax, hne⟩ := axisPoints_isSome hstep hlh
  exact ⟨ax, hax, hne, axisPoints_head? hstep hlh hax, axisPoints_getLast? hstep hlh hax⟩

/-- Witness for C2 at `lo = 0`, `hi = 1`, `step = 3/10` (not an exact divisor of
`hi - lo`). -/
theorem C2_boundary_inclusion_witness :
    (0 : ℚ) ≤ 1 ∧ (0 : ℚ) < 3/10 ∧
    ∃ ax, axisPoints 0 1 (3/10) = some ax ∧ ax ≠ [] ∧
      ax.head? = some 0 ∧ ax.getLast? = some 1 :=
  ⟨by norm_num, by norm_num, C2_boundary_inclusion 0 1 (3/10) (by norm_num) (by norm_num)⟩

/-- C6: every discretized axis is strictly increasing consecutively — hence
non-decreasing with no duplicate consecutive values — and when the last stepped
point already equals `hi` no duplicate trailing `hi` is appended. -/
theorem C6_monotonicity (lo hi step : ℚ) (hstep : 0 < step) {ax : List ℚ}
    (hax : axisPoints lo hi step = some ax) :
    ax.Chain' (· ≤ ·) ∧ ax.Chain' (· ≠ ·) ∧
    ((rangePoints lo hi step).getLastD 0 = hi → ax = rangePoints lo hi step) := by
  have hlt : ax.Chain' (· < ·) := axisPoints_chain' hstep hax
  refine ⟨hlt.imp fun a b h => le_of_lt h, hlt.imp fun a b h => ne_of_lt h,
    fun hlast => ?_⟩
  have hne : rangePoints lo hi step ≠ [] := by
    intro h
    rw [axisPoints, if_pos h] at hax
    cases hax
  have := axisPoints_no_trailing_dup hne hlast
  rw [this] at hax
  injection hax with hax
  exact hax.symm

/-- Intermediate evaluation: the axis of `[0, 1]` at step `3/10`. -/
lemma axisPoints_eval_const : axisPoints 0 1 (3/10) = some [0, 3/10, 3/5, 9/10, 1] := by
  have hnum : (numPoints 0 1 (3/10)).toNat = 4 := by
    rw [numPoints, truncInt, if_pos (by norm_num)]
    norm_num
    decide
  have hpts : rangePoints 0 1 (3/10) = [0, 3/10, 3/5, 9/10] := by
    rw [rangePoints, hnum]
    norm_num [List.range_succ, min_def]
  rw [axisPoints_of_ne_nil (by rw [hpts]; simp), hpts]
  norm_num [List.getLastD]

/-- Witness for C6 at `lo = 0`, `hi = 1`, `step = 3/10`. -/
theorem C6_monotonicity_witness :
    (0 : ℚ) < 3/10 ∧
    axisPoints 0 1 (3/10) = some [0, 3/10, 3/5, 9/10, 1] ∧
    ([0, 3/10, 3/5, 9/10, (1 : ℚ)].Chain' (· ≤ ·) ∧
      [0, 3/10, 3/5, 9/10, (1 : ℚ)].Chain' (· ≠ ·) ∧
      ((rangePoints 0 1 (3/10)).getLastD 0 = 1 →
        [0, 3/10, 3/5, 9/10, (1 : ℚ)] = rangePoints 0 1 (3/10))) :=
  ⟨by norm_num, axisPoints_eval_const,
    C6_monotonicity 0 1 (3/10) (by norm_num) axisPoints_eval_const⟩

/-- C7: the double clamp by `delta_max` in the upper-bound formula is redundant:
`min(delta_max, min(p_max - p_k, delta_max)) = min(delta_max, p_max - p_k)`. -/
theorem C7_redundant_clamp (dmax pmax pk : ℚ) :
    deltaHi dmax pmax pk = min dmax (pmax - pk) := by
  rw [deltaHi, min_left_comm, min_self, min_comm]

/-- C8: the function is deterministic — identical inputs produce identical
output sequences. -/
theorem C8_deterministic (p₁ p₂ : List (List ℚ)) (dmin₁ dmin₂ dmax₁ dmax₂ : List ℚ)
    (s₁ s₂ : ℚ) (hp : p₁ = p₂) (hmin : dmin₁ = dmin₂) (hmax : dmax₁ = dmax₂)
    (hs : s₁ = s₂) :
    consistent_polytope_nd p₁ dmin₁ dmax₁ s₁ = consistent_polytope_nd p₂ dmin₂ dmax₂ s₂ := by
  rw [hp, hmin, hmax, hs]

/-- Witness for C8 at a concrete input. -/
theorem C8_deterministic_witness :
    ([[(0 : ℚ), 1]] = [[(0 : ℚ), 1]]) ∧
    consistent_polytope_nd [[0, 1]] [-1] [1] 1 = consistent_polytope_nd [[0, 1]] [-1] [1] 1 :=
  ⟨rfl, C8_deterministic [[0, 1]] [[0, 1]] [-1] [-1] [1] [1] 1 1 rfl rfl rfl rfl⟩

/-- C9: a degenerate interval `lo = hi` yields exactly the single-element axis
`[lo]`: one point, and no trailing point is appended. -/
theorem C9_degenerate_axis (lo step : ℚ) (hstep : 0 < step) :
    axisPoints lo lo step = some [lo] := by
  have h0 : numPoints lo lo step = 1 := by
    simp [numPoints, truncInt]
  have hpts : rangePoints lo lo step = [lo] := by
    rw [rangePoints, h0]
    simp [List.range_succ]
  rw [axisPoints, if_neg (by simp [hpts]), hpts]
  simp

/-- Witness for C9 at `lo = 2`, `step = 1/2`. -/
theorem C9_degenerate_axis_witness :
    (0 : ℚ) < 1/2 ∧ axisPoints 2 2 (1/2) = some [2] :=
  ⟨by norm_num, C9_degenerate_axis 2 (1/2) (by norm_num)⟩

/-- C3 counterexample: for the length-2 input vector `[1, 2]`, the normalized
matrix has a single row of length 2, not two rows of length 1 — so the claim
that a rank-1 input of length R becomes an R×1 matrix fails at R = 2. -/
theorem C3_counterexample :
    ¬ ((normalizeRank1Params [(1 : ℚ), 2]).length = 2 ∧
       ∀ row ∈ normalizeRank1Params [(1 : ℚ), 2], row.length = 1) := by
  intro h
  have := h.1
  simp [normalizeRank1Params] at this

/-- C3 (amended): a rank-1 params vector of length R is normalized to a 1×R
matrix — one row, R columns — whose single row is the vector itself, and the
delta bounds are wrapped as length-1 outer sequences. -/
theorem C3_normalization (v : List ℚ) (b : List ℚ) :
    (normalizeRank1Params v).length = 1 ∧
    (∀ row ∈ normalizeRank1Params v, row.length = v.length) ∧
    (normalizeRank1Params v).headD [] = v ∧
    (wrapDeltaBound b).length = 1 ∧ (wrapDeltaBound b).headD [] = b := by
  refine ⟨rfl, ?_, rfl, rfl, rfl⟩
  intro row hrow
  have : row = v := by simpa [normalizeRank1Params] using hrow
  rw [this]

/-! ## Concrete evaluations for the infeasible-interval inputs -/

/-- For `params = [[0]]`, `dmin = [5]`, `dmax = [10]`: the derived interval of
column 0, dimension 0 is `[5, 0]` — infeasible. -/
lemma loDK_eval_inf : loDK [[0]] [5] [10] 0 0 = 5 := by
  norm_num [loDK, deltaLo, pMin, colK, listMin, max_def]

lemma hiDK_eval_inf : hiDK [[0]] [10] 0 0 = 0 := by
  norm_num [hiDK, deltaHi, pMax, colK, listMax, min_def]

lemma axisPoints_eval_none : axisPoints 5 0 1 = none := by
  have hnum : (numPoints 5 0 1).toNat = 0 := by
    rw [numPoints, truncInt, if_neg (by norm_num)]
    norm_num
    decide
  have hpts : rangePoints 5 0 1 = [] := by
    rw [rangePoints, hnum]
    rfl
  rw [axisPoints, if_pos hpts]

/-- C4 counterexample: with `params = [[0]]`, `dmin = [5]`, `dmax = [10]`,
`step = 1`, the feasible interval of column 0, dimension 0 is infeasible
(`hi < lo`), and the call raises (`range_points[-1]` on an empty list) instead
of completing with an output list. -/
theorem C4_counterexample :
    hiDK [[0]] [10] 0 0 < loDK [[0]] [5] [10] 0 0 ∧
    consistent_polytope_nd [[0]] [5] [10] 1 = none := by
  constructor
  · rw [hiDK_eval_inf, loDK_eval_inf]
    norm_num
  · have hca : columnAxes [[0]] [5] [10] 1 0 = none := by
      rw [columnAxes]
      norm_num [List.range_succ, loDK_eval_inf, hiDK_eval_inf, axisPoints_eval_none, seqOpt]
    rw [consistent_polytope_nd]
    norm_num [List.range_succ, columnPairs, hca, seqOpt]

/-- C4 (amended): for an infeasible per-dimension interval (`hi < lo`) the
behavior depends on the gap: if `lo - hi < step` the axis degrades to the
degenerate single point `[hi]`, but if `step ≤ lo - hi` the generated
`range_points` is empty and the code raises `IndexError` (modelled as `none`)
rather than completing. -/
theorem C4_empty_interval_behavior (lo hi step : ℚ) (hstep : 0 < step) (hlt : hi < lo) :
    (lo - hi < step → axisPoints lo hi step = some [hi]) ∧
    (step ≤ lo - hi → axisPoints lo hi step = none) := by
  have hq : (hi - lo) / step < 0 := div_neg_of_neg_of_pos (by linarith) hstep
  constructor
  · intro hnear
    have hceil0 : ⌈(hi - lo) / step⌉ = 0 := by
      have h1 : ⌈(hi - lo) / step⌉ ≤ 0 := Int.ceil_le.mpr (by push_cast; linarith)
      have h2 : (-1 : ℤ) < ⌈(hi - lo) / step⌉ := Int.lt_ceil.mpr (by
        push_cast
        rw [lt_div_iff₀ hstep]
        linarith)
      omega
    have hnum : (numPoints lo hi step).toNat = 1 := by
      rw [numPoints, truncInt, if_neg (not_le.mpr hq), hceil0]
      rfl
    have hpts : rangePoints lo hi step = [hi] := by
      rw [rangePoints, hnum]
      simp [List.range_succ, min_eq_right hlt.le]
    rw [axisPoints, if_neg (by simp [hpts]), hpts]
    simp
  · intro hfar
    have hle : (hi - lo) / step ≤ -1 := by
      rw [div_le_iff₀ hstep]
      linarith
    have hceil : ⌈(hi - lo) / step⌉ ≤ -1 := Int.ceil_le.mpr (by push_cast; linarith)
    have hnum : (numPoints lo hi step).toNat = 0 := by
      rw [numPoints, truncInt, if_neg (not_le.mpr hq)]
      omega
    have hpts : rangePoints lo hi step = [] := by
      rw [rangePoints, hnum]
      rfl
    rw [axisPoints, if_pos hpts]

/-- Witness for the amended C4 at `lo = 1`, `hi = 0`, `step = 2`. -/
theorem C4_empty_interval_behavior_witness :
    (0 : ℚ) < 2 ∧ (0 : ℚ) < 1 ∧
    (((1 : ℚ) - 0 < 2 → axisPoints 1 0 2 = some [0]) ∧
      ((2 : ℚ) ≤ 1 - 0 → axisPoints 1 0 2 = none)) :=
  ⟨by norm_num, by norm_num,
    C4_empty_interval_behavior 1 0 2 (by norm_num) (by norm_num)⟩


/-! ## C1: feasibility -/

lemma axisPoints_eval_step6 : axisPoints 5 0 6 = some [0] := by
  have hc : (⌈((0 : ℚ) - 5) / 6⌉ : ℤ) = 0 := by norm_num
  have hnum : (numPoints 5 0 6).toNat = 1 := by
    rw [numPoints, truncInt, if_neg (by norm_num), hc]
    rfl
  have hpts : rangePoints 5 0 6 = [0] := by
    rw [rangePoints, hnum]
    norm_num [List.range_succ, min_def]
  rw [axisPoints, if_neg (by simp [hpts]), hpts]
  simp

lemma cpnd_eval_step6 : consistent_polytope_nd [[0]] [5] [10] 6 = some [([0], [5])] := by
  have hca : columnAxes [[0]] [5] [10] 6 0 = some [[0]] := by
    rw [columnAxes]
    norm_num [List.range_succ, loDK_eval_inf, hiDK_eval_inf, axisPoints_eval_step6, seqOpt]
  rw [consistent_polytope_nd]
  norm_num [List.range_succ, columnPairs, hca, cartProd, clipVec, clip1, colK,
    seqOpt, min_def, max_def]

/-- C1 counterexample: with `params = [[0]]` (R = 1, K = 1),
`delta_params_min = [5]`, `delta_params_max = [10]`, `step_size = 6 > 0`, the
call emits the single pair `([0], [5])`, and `p_k[0] + delta_p[0] = 5` exceeds
`p_max[0] = 0` — the feasibility claim fails as stated. -/
theorem C1_counterexample :
    (0 : ℚ) < 6 ∧
    consistent_polytope_nd [[0]] [5] [10] 6 = some [([0], [5])] ∧
    ¬ (([(0 : ℚ)], [(5 : ℚ)]).1.getD 0 0 + ([(0 : ℚ)], [(5 : ℚ)]).2.getD 0 0
        ≤ (pMax [[0]]).getD 0 0) := by
  refine ⟨by norm_num, cpnd_eval_step6, ?_⟩
  norm_num [pMax, listMax]

/-- C1 (amended): under the additional hypothesis that every derived
per-column, per-dimension feasible interval is nonempty
(`delta_min_k[d] ≤ delta_max_k[d]`), every emitted pair `(p_k, delta_p)`
satisfies, for every dimension `d`:
`delta_params_min[d] ≤ delta_p[d] ≤ delta_params_max[d]` and
`p_min[d] ≤ p_k[d] + delta_p[d] ≤ p_max[d]`. -/
theorem C1_feasibility (params : List (List ℚ)) (dmin dmax : List ℚ) (step : ℚ)
    (hstep : 0 < step)
    (hfeas : ∀ k, k < (params.headD []).length → ∀ d, d < params.length →
      loDK params dmin dmax k d ≤ hiDK params dmax k d)
    {l : List (List ℚ × List ℚ)}
    (hl : consistent_polytope_nd params dmin dmax step = some l)
    {pr : List ℚ × List ℚ} (hpr : pr ∈ l) (d : ℕ) (hd : d < params.length) :
    dmin.getD d 0 ≤ pr.2.getD d 0 ∧ pr.2.getD d 0 ≤ dmax.getD d 0 ∧
    (pMin params).getD d 0 ≤ pr.1.getD d 0 + pr.2.getD d 0 ∧
    pr.1.getD d 0 + pr.2.getD d 0 ≤ (pMax params).getD d 0 := by
  obtain ⟨k, hk, axes, haxes, delta, hdelta, rfl⟩ := mem_output hl hpr
  obtain ⟨haxlen, hget⟩ := columnAxes_getD haxes
  obtain ⟨hdlen, hdmem⟩ := cartProd_mem hdelta
  have hd' : d < axes.length := by rw [haxlen]; exact hd
  have hx : delta.getD d 0 ∈ axes.getD d [] := hdmem d hd'
  have hax := hget d hd
  have hlohi := hfeas k hk d hd
  obtain ⟨hxlo, hxhi⟩ := axisPoints_mem_bounds hstep hlohi hax hx
  have hddelta : d < delta.length := by rw [hdlen]; exact hd'
  have h1 := dmin_le_loDK params dmin dmax k d
  have h2 := hiDK_le_dmax params dmax k d
  have h3 := pminsub_le_loDK params dmin dmax k d
  have h4 := hiDK_le_pmaxsub params dmax k d
  have hclip : (clipVec dmin dmax delta).getD d 0 = delta.getD d 0 := by
    rw [clipVec_getD hddelta, clip1,
      max_eq_right (le_trans h1 hxlo), min_eq_right (le_trans hxhi h2)]
  have hfst : ((colK params k, clipVec dmin dmax delta).1 : List ℚ) = colK params k := rfl
  have hsnd : ((colK params k, clipVec dmin dmax delta).2 : List ℚ)
      = clipVec dmin dmax delta := rfl
  rw [hfst, hsnd, hclip]
  refine ⟨le_trans h1 hxlo, le_trans hxhi h2, ?_, ?_⟩
  · linarith
  · linarith

/-! Evaluation of the pipeline at `params = [[0, 1]]`, `dmin = [-1]`,
`dmax = [1]`, `step = 1`, used by witnesses. -/

lemma w1_lo0 : loDK [[0, 1]] [-1] [1] 0 0 = 0 := by
  norm_num [loDK, deltaLo, pMin, colK, listMin, max_def, min_def]

lemma w1_hi0 : hiDK [[0, 1]] [1] 0 0 = 1 := by
  norm_num [hiDK, deltaHi, pMax, colK, listMax, max_def, min_def]

lemma w1_lo1 : loDK [[0, 1]] [-1] [1] 1 0 = -1 := by
  norm_num [loDK, deltaLo, pMin, colK, listMin, max_def, min_def]

lemma w1_hi1 : hiDK [[0, 1]] [1] 1 0 = 0 := by
  norm_num [hiDK, deltaHi, pMax, colK, listMax, max_def, min_def]

lemma w1_ax0 : axisPoints 0 1 1 = some [0, 1] := by
  have hc : (⌊((1 : ℚ) - 0) / 1⌋ : ℤ) = 1 := by norm_num
  have hnum : (numPoints 0 1 1).toNat = 2 := by
    rw [numPoints, truncInt, if_pos (by norm_num), hc]
    rfl
  have hpts : rangePoints 0 1 1 = [0, 1] := by
    rw [rangePoints, hnum]
    norm_num [List.range_succ, min_def]
  rw [axisPoints, if_neg (by simp [hpts]), hpts]
  simp

lemma w1_ax1 : axisPoints (-1) 0 1 = some [-1, 0] := by
  have hc : (⌊((0 : ℚ) - -1) / 1⌋ : ℤ) = 1 := by norm_num
  have hnum : (numPoints (-1) 0 1).toNat = 2 := by
    rw [numPoints, truncInt, if_pos (by norm_num), hc]
    rfl
  have hpts : rangePoints (-1) 0 1 = [-1, 0] := by
    rw [rangePoints, hnum]
    norm_num [List.range_succ, min_def]
  rw [axisPoints, if_neg (by simp [hpts]), hpts]
  simp

lemma w1_cp0 : columnPairs [[0, 1]] [-1] [1] 1 0 = some [([0], [0]), ([0], [1])] := by
  have hca : columnAxes [[0, 1]] [-1] [1] 1 0 = some [[0, 1]] := by
    rw [columnAxes]
    norm_num [List.range_succ, w1_lo0, w1_hi0, w1_ax0, seqOpt]
  rw [columnPairs, hca]
  norm_num [cartProd, clipVec, clip1, colK, List.range_succ, min_def, max_def]

lemma w1_cp1 : columnPairs [[0, 1]] [-1] [1] 1 1 = some [([1], [-1]), ([1], [0])] := by
  have hca : columnAxes [[0, 1]] [-1] [1] 1 1 = some [[-1, 0]] := by
    rw [columnAxes]
    norm_num [List.range_succ, w1_lo1, w1_hi1, w1_ax1, seqOpt]
  rw [columnPairs, hca]
  norm_num [cartProd, clipVec, clip1, colK, List.range_succ, min_def, max_def]

lemma w1_total : consistent_polytope_nd [[0, 1]] [-1] [1] 1
    = some [([0], [0]), ([0], [1]), ([1], [-1]), ([1], [0])] := by
  rw [consistent_polytope_nd]
  norm_num [List.range_succ, w1_cp0, w1_cp1, seqOpt]

lemma w1_feas : ∀ k, k < ([[(0 : ℚ), 1]].headD []).length → ∀ d, d < [[(0 : ℚ), 1]].length →
    loDK [[0, 1]] [-1] [1] k d ≤ hiDK [[0, 1]] [1] k d := by
  intro k hk d hd
  simp only [List.headD_cons, List.length_cons, List.length_nil] at hk hd
  interval_cases k <;> interval_cases d
  · rw [w1_lo0, w1_hi0]; norm_num
  · rw [w1_lo1, w1_hi1]; norm_num

/-- Witness for the amended C1 at `params = [[0, 1]]`, `dmin = [-1]`,
`dmax = [1]`, `step = 1`, checking the emitted pair `([1], [-1])` in
dimension 0. -/
theorem C1_feasibility_witness :
    (0 : ℚ) < 1 ∧
    consistent_polytope_nd [[0, 1]] [-1] [1] 1
      = some [([0], [0]), ([0], [1]), ([1], [-1]), ([1], [0])] ∧
    (([(1 : ℚ)], [(-1 : ℚ)]) ∈ [([(0 : ℚ)], [(0 : ℚ)]), ([0], [1]), ([1], [-1]), ([1], [0])]) ∧
    ([(-1 : ℚ)].getD 0 0 ≤ (([(1 : ℚ)], [(-1 : ℚ)])).2.getD 0 0 ∧
      (([(1 : ℚ)], [(-1 : ℚ)])).2.getD 0 0 ≤ [(1 : ℚ)].getD 0 0 ∧
      (pMin [[0, 1]]).getD 0 0
        ≤ (([(1 : ℚ)], [(-1 : ℚ)])).1.getD 0 0 + (([(1 : ℚ)], [(-1 : ℚ)])).2.getD 0 0 ∧
      (([(1 : ℚ)], [(-1 : ℚ)])).1.getD 0 0 + (([(1 : ℚ)], [(-1 : ℚ)])).2.getD 0 0
        ≤ (pMax [[0, 1]]).getD 0 0) :=
  ⟨by norm_num, w1_total, by simp,
    C1_feasibility [[0, 1]] [-1] [1] 1 (by norm_num) w1_feas w1_total (by simp) 0
      (by norm_num)⟩


/-! ## C5: Cartesian completeness and column order -/

/-- C5: when the call completes, the output is the concatenation, in column
order `k = 0..K-1`, of per-column groups; the group of column `k` consists of
exactly one pair per element of the Cartesian product of its discretized axes,
so its size is the product of the axis sizes. -/
theorem C5_cartesian_completeness (params : List (List ℚ)) (dmin dmax : List ℚ) (step : ℚ)
    {l : List (List ℚ × List ℚ)}
    (hl : consistent_polytope_nd params dmin dmax step = some l) :
    ∃ cols : List (List (List ℚ × List ℚ)),
      l = cols.flatten ∧ cols.length = (params.headD []).length ∧
      ∀ k, k < (params.headD []).length →
        ∃ axes, columnAxes params dmin dmax step k = some axes ∧
          cols.getD k [] = (cartProd axes).map
            (fun delta => (colK params k, clipVec dmin dmax delta)) ∧
          (cols.getD k []).length = (axes.map List.length).prod := by
  obtain ⟨cols, hcols, rfl⟩ := consistent_eq_some.mp hl
  refine ⟨cols, rfl, ?_, ?_⟩
  · rw [seqOpt_length hcols]
    simp
  · intro k hk
    have hklen : k < ((List.range ((params.headD []).length)).map
        (columnPairs params dmin dmax step)).length := by simpa using hk
    have hcp := seqOpt_getD [] hcols k hklen
    rw [getD_map_range none _ hk] at hcp
    obtain ⟨axes, haxes, hmap⟩ := columnPairs_eq_some.mp hcp
    refine ⟨axes, haxes, hmap.symm, ?_⟩
    rw [← hmap, List.length_map, cartProd_length]

/-- Witness for C5 at `params = [[0, 1]]`, `dmin = [-1]`, `dmax = [1]`,
`step = 1`. -/
theorem C5_cartesian_completeness_witness :
    consistent_polytope_nd [[0, 1]] [-1] [1] 1
      = some [([0], [0]), ([0], [1]), ([1], [-1]), ([1], [0])] ∧
    ∃ cols : List (List (List ℚ × List ℚ)),
      [([(0 : ℚ)], [(0 : ℚ)]), ([0], [1]), ([1], [-1]), ([1], [0])] = cols.flatten ∧
      cols.length = ([[(0 : ℚ), 1]].headD []).length ∧
      ∀ k, k < ([[(0 : ℚ), 1]].headD []).length →
        ∃ axes, columnAxes [[0, 1]] [-1] [1] 1 k = some axes ∧
          cols.getD k [] = (cartProd axes).map
            (fun delta => (colK [[0, 1]] k, clipVec [-1] [1] delta)) ∧
          (cols.getD k []).length = (axes.map List.length).prod :=
  ⟨w1_total, C5_cartesian_completeness [[0, 1]] [-1] [1] 1 w1_total⟩

/-! ## C10: zero-feasible bounds keep every access safe -/

lemma axisPoints_some_ne_nil {lo hi step : ℚ} {ax : List ℚ}
    (hax : axisPoints lo hi step = some ax) : ax ≠ [] := by
  rw [axisPoints] at hax
  by_cases hne : rangePoints lo hi step = []
  · rw [if_pos hne] at hax
    cases hax
  · rw [if_neg hne] at hax
    injection hax with hax
    subst hax
    by_cases hcap : (rangePoints lo hi step).getLastD 0 < hi
    · rw [if_pos hcap]
      simp
    · rw [if_neg hcap]
      exact hne

/-- C10: if `delta_params_min[d] ≤ 0 ≤ delta_params_max[d]` for every dimension
`d` (with `step_size > 0` and a rectangular matrix), then every derived interval
contains zero (`delta_min_k[d] ≤ 0 ≤ delta_max_k[d]`), every `range_points`
list is non-empty — so the `range_points[-1]` access never fails — and every
column contributes at least one output pair. -/
theorem C10_zero_feasible (params : List (List ℚ)) (dmin dmax : List ℚ) (step : ℚ)
    (hstep : 0 < step)
    (hrect : ∀ row ∈ params, row.length = (params.headD []).length)
    (hbounds : ∀ d, d < params.length → dmin.getD d 0 ≤ 0 ∧ 0 ≤ dmax.getD d 0) :
    (∀ k, k < (params.headD []).length → ∀ d, d < params.length →
      loDK params dmin dmax k d ≤ 0 ∧ 0 ≤ hiDK params dmax k d) ∧
    (∀ k, k < (params.headD []).length → ∀ d, d < params.length →
      rangePoints (loDK params dmin dmax k d) (hiDK params dmax k d) step ≠ [] ∧
      axisPoints (loDK params dmin dmax k d) (hiDK params dmax k d) step ≠ none) ∧
    ∃ l, consistent_polytope_nd params dmin dmax step = some l ∧
      ∃ cols : List (List (List ℚ × List ℚ)), l = cols.flatten ∧
        cols.length = (params.headD []).length ∧
        ∀ k, k < (params.headD []).length → cols.getD k [] ≠ [] := by
  have hint : ∀ k, k < (params.headD []).length → ∀ d, d < params.length →
      loDK params dmin dmax k d ≤ 0 ∧ 0 ≤ hiDK params dmax k d := by
    intro k hk d hd
    have hrowmem : params.getD d [] ∈ params := getD_mem [] params d hd
    have hrlen : (params.getD d []).length = (params.headD []).length :=
      hrect _ hrowmem
    have hpk : (colK params k).getD d 0 = (params.getD d []).getD k 0 :=
      getD_map [] 0 _ hd
    have hpmin : (pMin params).getD d 0 = listMin (params.getD d []) :=
      getD_map [] 0 listMin hd
    have hpmax : (pMax params).getD d 0 = listMax (params.getD d []) :=
      getD_map [] 0 listMax hd
    have hmem : (params.getD d []).getD k 0 ∈ params.getD d [] :=
      getD_mem 0 _ k (by rw [hrlen]; exact hk)
    have hminle := listMin_le hmem
    have hmaxge := le_listMax hmem
    obtain ⟨hb1, hb2⟩ := hbounds d hd
    constructor
    · rw [loDK, deltaLo, hpmin, hpk]
      exact max_le hb1 (max_le (by linarith) (by linarith))
    · rw [hiDK, deltaHi, hpmax, hpk]
      exact le_min hb2 (le_min (by linarith) hb2)
  have hlohi : ∀ k, k < (params.headD []).length → ∀ d, d < params.length →
      loDK params dmin dmax k d ≤ hiDK params dmax k d := by
    intro k hk d hd
    obtain ⟨h1, h2⟩ := hint k hk d hd
    linarith
  have hca : ∀ k, k < (params.headD []).length →
      ∃ axes, columnAxes params dmin dmax step k = some axes := by
    intro k hk
    rw [columnAxes]
    apply seqOpt_of_all_some
    intro o ho
    obtain ⟨d, hdmem, rfl⟩ := List.mem_map.mp ho
    obtain ⟨ax, hax, _⟩ := axisPoints_isSome hstep (hlohi k hk d (List.mem_range.mp hdmem))
    exact ⟨ax, hax⟩
  have hcp : ∀ k, k < (params.headD []).length →
      ∃ sub, columnPairs params dmin dmax step k = some sub ∧ sub ≠ [] := by
    intro k hk
    obtain ⟨axes, haxes⟩ := hca k hk
    refine ⟨(cartProd axes).map
      (fun delta => (colK params k, clipVec dmin dmax delta)),
      columnPairs_eq_some.mpr ⟨axes, haxes, rfl⟩, ?_⟩
    have hcne : cartProd axes ≠ [] := by
      apply cartProd_ne_nil
      intro ax hax2
      have hsome : some ax ∈ (List.range params.length).map fun d =>
          axisPoints (loDK params dmin dmax k d) (hiDK params dmax k d) step := by
        rw [columnAxes] at haxes
        exact seqOpt_mem haxes hax2
      obtain ⟨d, _, heq⟩ := List.mem_map.mp hsome
      exact axisPoints_some_ne_nil heq
    intro hmapnil
    exact hcne (List.map_eq_nil_iff.mp hmapnil)
  refine ⟨hint, ?_, ?_⟩
  · intro k hk d hd
    have hne := rangePoints_ne_nil hstep (hlohi k hk d hd)
    refine ⟨hne, ?_⟩
    rw [axisPoints_of_ne_nil hne]
    simp
  · obtain ⟨cols, hcols⟩ : ∃ cols,
        seqOpt ((List.range ((params.headD []).length)).map
          (columnPairs params dmin dmax step)) = some cols := by
      apply seqOpt_of_all_some
      intro o ho
      obtain ⟨k, hkmem, rfl⟩ := List.mem_map.mp ho
      obtain ⟨sub, hsub, _⟩ := hcp k (List.mem_range.mp hkmem)
      exact ⟨sub, hsub⟩
    refine ⟨cols.flatten, ?_, cols, rfl, ?_, ?_⟩
    · rw [consistent_polytope_nd, hcols]
      rfl
    · rw [seqOpt_length hcols]
      simp
    · intro k hk
      have hklen : k < ((List.range ((params.headD []).length)).map
          (columnPairs params dmin dmax step)).length := by simpa using hk
      have hgetk := seqOpt_getD [] hcols k hklen
      rw [getD_map_range none _ hk] at hgetk
      obtain ⟨sub, hsub, hne⟩ := hcp k hk
      rw [hsub] at hgetk
      injection hgetk with hgetk
      rw [← hgetk]
      exact hne

/-- Witness for C10 at `params = [[0, 1]]`, `dmin = [-1]`, `dmax = [1]`,
`step = 1`. -/
theorem C10_zero_feasible_witness :
    (0 : ℚ) < 1 ∧
    (∀ row ∈ [[(0 : ℚ), 1]], row.length = ([[(0 : ℚ), 1]].headD []).length) ∧
    (∀ d, d < [[(0 : ℚ), 1]].length → [(-1 : ℚ)].getD d 0 ≤ 0 ∧ 0 ≤ [(1 : ℚ)].getD d 0) ∧
    (∀ k, k < ([[(0 : ℚ), 1]].headD []).length → ∀ d, d < [[(0 : ℚ), 1]].length →
      loDK [[0, 1]] [-1] [1] k d ≤ 0 ∧ 0 ≤ hiDK [[0, 1]] [1] k d) :=
  ⟨by norm_num, by simp,
    by
      intro d hd
      simp only [List.length_cons, List.length_nil] at hd
      interval_cases d
      norm_num,
    (C10_zero_feasible [[0, 1]] [-1] [1] 1 (by norm_num) (by simp)
      (by
        intro d hd
        simp only [List.length_cons, List.length_nil] at hd
        interval_cases d
        norm_num)).1⟩

end Polytope
